import Mathlib

/-!
Shallow embedding of the `chrismfp` CSV converter (src/main.rs, src/mfp.rs)
and proofs about its record-normalization / aggregation pipeline.

Modelling conventions:
* `indexmap::IndexMap` is modelled as an association list `List (String × β)`
  with insertion-order semantics: `entry k (and_modify f) (or_insert v)`
  modifies the existing entry in place or appends a fresh one at the end.
* Rust panics (`unwrap` on `None`/parse failures) are modelled by `Option`:
  a `none` result is an aborted run that produced no output.
* `f64` macro values are modelled as exact rationals `ℚ`; `str::parse::<f64>`
  is an external collaborator and is passed in as `parse : String → Option ℚ`.
* Strings manipulated by the byte-level post-processing are modelled as
  `List Char`.
-/

namespace ChrisMfp

/-! ### The `IndexMap` model -/

/-- First-match lookup in an insertion-ordered association list
(`IndexMap::get`). -/
def lookupIdx {β : Type} (k : String) : List (String × β) → Option β
  | [] => none
  | (k', b) :: t => if k' = k then some b else lookupIdx k t

/-- `map.entry(k).and_modify(f).or_insert(v)`: modify the entry for `k` in
place if present, otherwise append `(k, v)` at the end. -/
def entryModifyOrInsert {β : Type} (k : String) (f : β → β) (v : β) :
    List (String × β) → List (String × β)
  | [] => [(k, v)]
  | (k', b) :: t =>
    if k' = k then (k', f b) :: t else (k', b) :: entryModifyOrInsert k f v t

theorem keys_entryModifyOrInsert {β : Type} (k : String) (f : β → β) (v : β)
    (m : List (String × β)) :
    (entryModifyOrInsert k f v m).map Prod.fst =
      if k ∈ m.map Prod.fst then m.map Prod.fst else m.map Prod.fst ++ [k] := by
  induction m with
  | nil => simp [entryModifyOrInsert]
  | cons hd t ih =>
    obtain ⟨k', b⟩ := hd
    by_cases h : k' = k
    · subst h
      simp [entryModifyOrInsert]
    · have hne : ¬ k = k' := fun hkk => h hkk.symm
      simp only [entryModifyOrInsert, if_neg h, List.map_cons, List.mem_cons, ih]
      by_cases hm : k ∈ t.map Prod.fst <;> simp [hm, hne]

theorem lookupIdx_entryModifyOrInsert_self {β : Type} (k : String) (f : β → β)
    (v : β) (m : List (String × β)) :
    lookupIdx k (entryModifyOrInsert k f v m) = some ((lookupIdx k m).elim v f) := by
  induction m with
  | nil => simp [entryModifyOrInsert, lookupIdx]
  | cons hd t ih =>
    obtain ⟨k', b⟩ := hd
    by_cases h : k' = k
    · simp [entryModifyOrInsert, lookupIdx, h]
    · simp [entryModifyOrInsert, lookupIdx, h, ih]

theorem lookupIdx_entryModifyOrInsert_ne {β : Type} {k k' : String} (f : β → β)
    (v : β) (m : List (String × β)) (h : k' ≠ k) :
    lookupIdx k' (entryModifyOrInsert k f v m) = lookupIdx k' m := by
  induction m with
  | nil =>
    simp only [entryModifyOrInsert, lookupIdx]
    rw [if_neg (Ne.symm h)]
  | cons hd t ih =>
    obtain ⟨k₀, b⟩ := hd
    by_cases h₀ : k₀ = k
    · have hne : ¬ k₀ = k' := fun hk => h (hk ▸ h₀)
      simp only [entryModifyOrInsert, if_pos h₀, lookupIdx]
      rw [if_neg hne, if_neg hne]
    · simp only [entryModifyOrInsert, if_neg h₀, lookupIdx]
      by_cases hk : k₀ = k' <;> simp [hk, ih]

theorem lookupIdx_eq_of_mem {β : Type} {k : String} {b : β}
    {m : List (String × β)} (hnd : (m.map Prod.fst).Nodup) (hm : (k, b) ∈ m) :
    lookupIdx k m = some b := by
  induction m with
  | nil => simp at hm
  | cons hd t ih =>
    obtain ⟨k₀, b₀⟩ := hd
    simp only [List.map_cons, List.nodup_cons] at hnd
    rcases List.mem_cons.mp hm with heq | hmem
    · simp only [Prod.mk.injEq] at heq
      obtain ⟨rfl, rfl⟩ := heq
      simp [lookupIdx]
    · have hk : ¬ k₀ = k := by
        rintro rfl
        exact hnd.1 (List.mem_map.mpr ⟨(k₀, b), hmem, rfl⟩)
      simp [lookupIdx, hk, ih hnd.2 hmem]

theorem mem_entryModifyOrInsert {β : Type} {k : String} {f : β → β} {v : β}
    {m : List (String × β)} {p : String × β}
    (hp : p ∈ entryModifyOrInsert k f v m) :
    p ∈ m ∨ (∃ b, (k, b) ∈ m ∧ p = (k, f b)) ∨ p = (k, v) := by
  induction m with
  | nil =>
    simp only [entryModifyOrInsert, List.mem_singleton] at hp
    exact Or.inr (Or.inr hp)
  | cons hd t ih =>
    obtain ⟨k₀, b₀⟩ := hd
    by_cases h : k₀ = k
    · subst h
      simp only [entryModifyOrInsert, if_true, eq_self_iff_true] at hp
      rcases List.mem_cons.mp hp with h1 | h1
      · exact Or.inr (Or.inl ⟨b₀, List.mem_cons_self _ _, h1⟩)
      · exact Or.inl (List.mem_cons_of_mem _ h1)
    · simp only [entryModifyOrInsert, if_neg h, List.mem_cons] at hp
      rcases hp with h1 | h1
      · exact Or.inl (List.mem_cons.mpr (Or.inl h1))
      · rcases ih h1 with h' | h'
        · exact Or.inl (List.mem_cons_of_mem _ h')
        · rcases h' with ⟨b, hb, hpb⟩ | h'
          · exact Or.inr (Or.inl ⟨b, List.mem_cons_of_mem _ hb, hpb⟩)
          · exact Or.inr (Or.inr h')

/-! ### Date truncation (`date.split_whitespace().next().unwrap()`) -/

/-- Rust `char::is_whitespace`: the Unicode `White_Space` property. -/
def rustIsWhitespace (c : Char) : Bool :=
  ['\t', '\n', '\u000B', '\u000C', '\r', ' ', '\u0085', '\u00A0', '\u1680',
   '\u2000', '\u2001', '\u2002', '\u2003', '\u2004', '\u2005', '\u2006',
   '\u2007', '\u2008', '\u2009', '\u200A', '\u2028', '\u2029', '\u202F',
   '\u205F', '\u3000'].contains c

/-- `s.split_whitespace().next()`: the first maximal run of non-whitespace
characters, or `none` when the string is all whitespace.  The source calls
`.unwrap()` on this, so `none` models a panic. -/
def firstTokenStr (s : String) : Option String :=
  match s.data.dropWhile rustIsWhitespace with
  | [] => none
  | c :: cs => some ⟨(c :: cs).takeWhile (fun a => !rustIsWhitespace a)⟩

/-- The spec's words: "the substring of the record's raw date field before its
first whitespace character".  Used only to compare the spec's description of
date normalization with the code's. -/
def specDateBeforeFirstWhitespace (s : String) : String :=
  ⟨s.data.takeWhile (fun a => !rustIsWhitespace a)⟩

/-! ### Workout records and the grouper (`main.rs`) -/

/-- `RawWorkoutRecord` (all fields textual, as in the source). -/
structure RawWorkoutRecord where
  date : String
  workout_name : String
  duration : String
  exercise_name : String
  set_order : String
  weight : String
  reps : String
  distance : String
  seconds : String
  notes : String
  workout_notes : String
  rpe : String
deriving DecidableEq, Repr

/-- `ExerciseRow`: ordered list of `(weight, reps)` pairs. -/
structure ExerciseRow where
  sets : List (String × String)
deriving DecidableEq, Repr

/-- `ExercisesMap`: exercise name → `ExerciseRow`, insertion-ordered. -/
structure ExercisesMap where
  map : List (String × ExerciseRow)
deriving DecidableEq, Repr

/-- `ExerciseRowsForADate`. -/
structure ExerciseRowsForADate where
  exercises : ExercisesMap
deriving DecidableEq, Repr

/-- `LastFourDaysWorkouts`. -/
structure LastFourDaysWorkouts where
  data : List (String × ExerciseRowsForADate)
deriving DecidableEq, Repr

/-- The `and_modify` closure of the grouping loop: within the date's exercise
map, append the `(weight, reps)` pair to the record's exercise, creating the
exercise row when needed. -/
def addSet (r : RawWorkoutRecord) (erd : ExerciseRowsForADate) :
    ExerciseRowsForADate :=
  ⟨⟨entryModifyOrInsert r.exercise_name
    (fun er => ⟨er.sets ++ [(r.weight, r.reps)]⟩)
    ⟨[(r.weight, r.reps)]⟩ erd.exercises.map⟩⟩

/-- The `or_insert` value of the grouping loop: a fresh exercise map holding
just this record's exercise and pair. -/
def freshDay (r : RawWorkoutRecord) : ExerciseRowsForADate :=
  ⟨⟨[(r.exercise_name, ⟨[(r.weight, r.reps)]⟩)]⟩⟩

/-- One loop iteration of `LastFourDaysWorkouts::from`: truncate the date
(panic → `none` if it is all whitespace), then
`entry(date).and_modify(append/insert exercise).or_insert(fresh map)`. -/
def addRecord (m : List (String × ExerciseRowsForADate)) (r : RawWorkoutRecord) :
    Option (List (String × ExerciseRowsForADate)) :=
  match firstTokenStr r.date with
  | none => none
  | some d => some (entryModifyOrInsert d (addSet r) (freshDay r) m)

/-- `LastFourDaysWorkouts::from`: group all records, then
`records_grouped_by_date.reverse(); truncate(4)`. -/
def lastFourDaysWorkoutsFrom (records : List RawWorkoutRecord) :
    Option LastFourDaysWorkouts :=
  (records.foldlM addRecord []).map (fun m => ⟨(m.reverse).take 4⟩)

/-- The truncated dates of all records, in input order (`none` when any record
would make the truncation panic). -/
def truncDates (records : List RawWorkoutRecord) : Option (List String) :=
  records.mapM (fun r => firstTokenStr r.date)

/-- Distinct elements in first-occurrence order. -/
def firstSeen (l : List String) : List String :=
  l.foldl (fun acc d => if d ∈ acc then acc else acc ++ [d]) []

theorem foldlM_addRecord_keys :
    ∀ (rs : List RawWorkoutRecord) (ds : List String)
      (m g : List (String × ExerciseRowsForADate)),
      truncDates rs = some ds →
      rs.foldlM addRecord m = some g →
      g.map Prod.fst =
        ds.foldl (fun acc d => if d ∈ acc then acc else acc ++ [d])
          (m.map Prod.fst)
  | [], ds, m, g, hds, hg => by
    simp only [truncDates, List.mapM_nil, Option.pure_def, Option.some.injEq] at hds
    simp only [List.foldlM_nil, Option.pure_def, Option.some.injEq] at hg
    subst hds hg
    simp
  | r :: rs, ds, m, g, hds, hg => by
    simp only [truncDates, List.mapM_cons, Option.pure_def, Option.bind_eq_bind,
      Option.bind_eq_some, Option.some.injEq] at hds
    obtain ⟨d, hd, ds', hds', rfl⟩ := hds
    simp only [List.foldlM_cons, Option.bind_eq_bind, Option.bind_eq_some] at hg
    obtain ⟨m₁, hm₁, hg⟩ := hg
    simp only [addRecord, hd, Option.some.injEq] at hm₁
    have hkeys := keys_entryModifyOrInsert d (addSet r) (freshDay r) m
    have ih := foldlM_addRecord_keys rs ds' m₁ g (by simpa [truncDates] using hds') hg
    rw [ih, ← hm₁, hkeys]
    simp only [List.foldl_cons]

/-- The set list stored under date `d`, exercise `e` (`[]` when either key is
absent). -/
def setsAt (m : List (String × ExerciseRowsForADate)) (d e : String) :
    List (String × String) :=
  ((lookupIdx d m).bind (fun erd => lookupIdx e erd.exercises.map)).elim []
    (fun er => er.sets)

theorem setsAt_addRecord {m m₁ : List (String × ExerciseRowsForADate)}
    {r : RawWorkoutRecord} (h : addRecord m r = some m₁) (d e : String) :
    setsAt m₁ d e = setsAt m d e ++
      (if firstTokenStr r.date = some d ∧ r.exercise_name = e
        then [(r.weight, r.reps)] else []) := by
  simp only [addRecord] at h
  rcases hd : firstTokenStr r.date with _ | d₀ <;> rw [hd] at h
  · exact absurd h (by simp)
  simp only [Option.some.injEq] at h
  subst h
  by_cases hdd : d₀ = d
  · subst hdd
    simp only [Option.some.injEq, eq_self_iff_true, true_and]
    rcases hm : lookupIdx d₀ m with _ | erd
    · -- new date: the inserted value is `freshDay r`
      simp only [setsAt, lookupIdx_entryModifyOrInsert_self, hm, Option.elim,
        Option.bind]
      by_cases he : r.exercise_name = e
      · subst he
        simp [freshDay, lookupIdx]
      · simp [freshDay, lookupIdx, he]
    · -- existing date: the entry is modified by `addSet r`
      simp only [setsAt, lookupIdx_entryModifyOrInsert_self, hm, Option.elim,
        Option.bind]
      by_cases he : r.exercise_name = e
      · subst he
        simp only [addSet, lookupIdx_entryModifyOrInsert_self, eq_self_iff_true,
          if_pos, if_true]
        rcases hee : lookupIdx r.exercise_name erd.exercises.map with _ | er <;>
          simp [hee, Option.elim]
      · have hne : e ≠ r.exercise_name := fun hk => he hk.symm
        simp only [addSet, lookupIdx_entryModifyOrInsert_ne _ _ _ hne, if_neg he]
        rcases hee : lookupIdx e erd.exercises.map with _ | er <;>
          simp [hee, Option.elim]
  · have hlk : lookupIdx d (entryModifyOrInsert d₀ (addSet r) (freshDay r) m) =
        lookupIdx d m :=
      lookupIdx_entryModifyOrInsert_ne _ _ _ (fun hk => hdd hk.symm)
    simp only [setsAt, hlk]
    rw [if_neg (fun hc : (some d₀ = some d) ∧ r.exercise_name = e =>
      hdd (Option.some.inj hc.1))]
    simp

theorem foldlM_addRecord_setsAt :
    ∀ (rs : List RawWorkoutRecord) (m g : List (String × ExerciseRowsForADate)),
      rs.foldlM addRecord m = some g → ∀ d e : String,
      setsAt g d e = setsAt m d e ++
        ((rs.filter (fun r =>
            decide (firstTokenStr r.date = some d) &&
            decide (r.exercise_name = e))).map
          (fun r => (r.weight, r.reps)))
  | [], m, g, hg, d, e => by
    simp only [List.foldlM_nil, Option.pure_def, Option.some.injEq] at hg
    subst hg
    simp
  | r :: rs, m, g, hg, d, e => by
    simp only [List.foldlM_cons, Option.bind_eq_bind, Option.bind_eq_some] at hg
    obtain ⟨m₁, hm₁, hg⟩ := hg
    have hstep := setsAt_addRecord hm₁ d e
    have ih := foldlM_addRecord_setsAt rs m₁ g hg d e
    rw [ih, hstep, List.filter_cons]
    by_cases hc : firstTokenStr r.date = some d ∧ r.exercise_name = e
    · simp [hc.1, hc.2]
    · rw [if_neg hc]
      have : (decide (firstTokenStr r.date = some d) &&
          decide (r.exercise_name = e)) = false := by
        rcases Decidable.not_and_iff_or_not.mp hc with h1 | h1 <;> simp [h1]
      simp [this]

/-- The invariant the grouping loop maintains: insertion-ordered maps never
hold a duplicated key, at either level. -/
def GroupedInv (m : List (String × ExerciseRowsForADate)) : Prop :=
  (m.map Prod.fst).Nodup ∧
    ∀ p ∈ m, (p.2.exercises.map.map Prod.fst).Nodup

theorem keys_nodup_entryModifyOrInsert {β : Type} {k : String} {f : β → β}
    {v : β} {m : List (String × β)} (h : (m.map Prod.fst).Nodup) :
    ((entryModifyOrInsert k f v m).map Prod.fst).Nodup := by
  rw [keys_entryModifyOrInsert]
  by_cases hk : k ∈ m.map Prod.fst
  · simpa [hk] using h
  · simp [hk, List.nodup_append, h]

theorem groupedInv_addRecord {m m₁ : List (String × ExerciseRowsForADate)}
    {r : RawWorkoutRecord} (h : addRecord m r = some m₁) (hm : GroupedInv m) :
    GroupedInv m₁ := by
  simp only [addRecord] at h
  rcases hd : firstTokenStr r.date with _ | d₀ <;> rw [hd] at h
  · exact absurd h (by simp)
  simp only [Option.some.injEq] at h
  subst h
  refine ⟨keys_nodup_entryModifyOrInsert hm.1, fun p hp => ?_⟩
  rcases mem_entryModifyOrInsert hp with hmem | ⟨b, hb, rfl⟩ | rfl
  · exact hm.2 p hmem
  · exact keys_nodup_entryModifyOrInsert (hm.2 (d₀, b) hb)
  · simp [freshDay]

theorem foldlM_addRecord_inv :
    ∀ (rs : List RawWorkoutRecord) (m g : List (String × ExerciseRowsForADate)),
      rs.foldlM addRecord m = some g → GroupedInv m → GroupedInv g
  | [], m, g, hg, hm => by
    simp only [List.foldlM_nil, Option.pure_def, Option.some.injEq] at hg
    exact hg ▸ hm
  | r :: rs, m, g, hg, hm => by
    simp only [List.foldlM_cons, Option.bind_eq_bind, Option.bind_eq_some] at hg
    obtain ⟨m₁, hm₁, hg⟩ := hg
    exact foldlM_addRecord_inv rs m₁ g hg (groupedInv_addRecord hm₁ hm)

/-- C1: for every workout input whose records all truncate to a valid date,
the grouper keeps exactly the four distinct truncated dates whose first
occurrence in the input comes last, presented most-recent-first (reverse of
first-seen order); when at most four distinct dates occur, all are kept. -/
theorem workout_grouper_window (records : List RawWorkoutRecord)
    (w : LastFourDaysWorkouts) (ds : List String)
    (h : lastFourDaysWorkoutsFrom records = some w)
    (hds : truncDates records = some ds) :
    w.data.map Prod.fst = ((firstSeen ds).reverse).take 4 ∧
    (4 < (firstSeen ds).length → (w.data.map Prod.fst).length = 4) ∧
    ((firstSeen ds).length ≤ 4 → w.data.map Prod.fst = (firstSeen ds).reverse) := by
  obtain ⟨g, hg, hw⟩ := Option.map_eq_some'.mp h
  have hkeys : g.map Prod.fst = firstSeen ds :=
    foldlM_addRecord_keys records ds [] g hds hg
  have hdata : w.data = (g.reverse).take 4 := by rw [← hw]
  have hmap : w.data.map Prod.fst = ((firstSeen ds).reverse).take 4 := by
    rw [hdata, List.map_take, List.map_reverse, hkeys]
  refine ⟨hmap, fun hlen => ?_, fun hlen => ?_⟩
  · rw [hmap, List.length_take, List.length_reverse]
    omega
  · rw [hmap]
    exact List.take_of_length_le (by rw [List.length_reverse]; exact hlen)

/-- Sample workout input: five distinct dates (with time-of-day components),
in chronological first-occurrence order. -/
def mkWorkout (d e wt rp : String) : RawWorkoutRecord :=
  ⟨d, "", "", e, "", wt, rp, "", "", "", "", ""⟩

def wk5 : List RawWorkoutRecord :=
  [mkWorkout "2024-01-01 07:30" "Bench" "100" "10",
   mkWorkout "2024-01-02 07:30" "Bench" "105" "8",
   mkWorkout "2024-01-03 07:30" "Squat" "140" "5",
   mkWorkout "2024-01-04 07:30" "Bench" "100" "10",
   mkWorkout "2024-01-05 07:30" "Squat" "150" "3"]

def ds5 : List String :=
  ["2024-01-01", "2024-01-02", "2024-01-03", "2024-01-04", "2024-01-05"]

def w5 : LastFourDaysWorkouts :=
  (lastFourDaysWorkoutsFrom wk5).getD ⟨[]⟩

theorem workout_grouper_window_witness :
    w5.data.map Prod.fst = ((firstSeen ds5).reverse).take 4 ∧
    (4 < (firstSeen ds5).length → (w5.data.map Prod.fst).length = 4) ∧
    ((firstSeen ds5).length ≤ 4 → w5.data.map Prod.fst = (firstSeen ds5).reverse) :=
  workout_grouper_window wk5 w5 ds5 rfl rfl

/-- C2: within every kept date group and every exercise in it, the stored set
list is exactly the `(weight, reps)` projection of the input records whose
truncated date and exercise name match, in input order. -/
theorem workout_grouper_sets_exact (records : List RawWorkoutRecord)
    (w : LastFourDaysWorkouts) (h : lastFourDaysWorkoutsFrom records = some w)
    (d : String) (erd : ExerciseRowsForADate) (hd : (d, erd) ∈ w.data)
    (e : String) (er : ExerciseRow) (he : (e, er) ∈ erd.exercises.map) :
    er.sets = (records.filter (fun r =>
        decide (firstTokenStr r.date = some d) &&
        decide (r.exercise_name = e))).map
      (fun r => (r.weight, r.reps)) := by
  obtain ⟨g, hg, hw⟩ := Option.map_eq_some'.mp h
  have hinv : GroupedInv g :=
    foldlM_addRecord_inv records [] g hg ⟨by simp, by simp⟩
  have hdata : w.data = (g.reverse).take 4 := by rw [← hw]
  rw [hdata] at hd
  have hmem : (d, erd) ∈ g :=
    List.mem_reverse.mp (List.take_subset _ _ hd)
  have hlk : lookupIdx d g = some erd := lookupIdx_eq_of_mem hinv.1 hmem
  have hlk2 : lookupIdx e erd.exercises.map = some er :=
    lookupIdx_eq_of_mem (hinv.2 (d, erd) hmem) he
  have hsets := foldlM_addRecord_setsAt records [] g hg d e
  simpa [setsAt, hlk, hlk2, lookupIdx] using hsets

/-- Sample workout input for the set-list property: repeated (date, exercise)
pairs, interleaved with another exercise and another date. -/
def wkC2 : List RawWorkoutRecord :=
  [mkWorkout "2024-02-01 08:00" "Bench" "100" "10",
   mkWorkout "2024-02-01 08:00" "Row" "60" "12",
   mkWorkout "2024-02-01 08:00" "Bench" "105" "8",
   mkWorkout "2024-02-02 08:00" "Bench" "90" "12"]

def wC2 : LastFourDaysWorkouts :=
  (lastFourDaysWorkoutsFrom wkC2).getD ⟨[]⟩

def erdC2 : ExerciseRowsForADate :=
  (lookupIdx "2024-02-01" wC2.data).getD ⟨⟨[]⟩⟩

def erC2 : ExerciseRow :=
  (lookupIdx "Bench" erdC2.exercises.map).getD ⟨[]⟩

theorem workout_grouper_sets_exact_witness :
    erC2.sets = (wkC2.filter (fun r =>
        decide (firstTokenStr r.date = some "2024-02-01") &&
        decide (r.exercise_name = "Bench"))).map
      (fun r => (r.weight, r.reps)) :=
  workout_grouper_sets_exact wkC2 wC2 rfl "2024-02-01" erdC2 (by decide)
    "Bench" erC2 (by decide)

/-- A record whose raw date starts with a space: the code groups it under the
first whitespace-delimited token, not under the substring before the first
whitespace character (which is empty). -/
def wkLeadingWs : RawWorkoutRecord :=
  mkWorkout " 2024-01-01 07:30" "Bench" "100" "10"

/-- A record whose raw date is all whitespace: `split_whitespace().next()`
yields `None` and the `.unwrap()` panics, so the normalization is undefined. -/
def wkAllWs : RawWorkoutRecord := mkWorkout " " "Bench" "100" "10"

/-- C7 counterexample: the grouping date is not always "the substring of the
raw date before its first whitespace character" (leading whitespace is
skipped), and the normalization is not defined for every date string (an
all-whitespace date panics). -/
theorem date_truncation_counterexample :
    (lastFourDaysWorkoutsFrom [wkLeadingWs]).map (fun w => w.data.map Prod.fst) =
      some ["2024-01-01"] ∧
    specDateBeforeFirstWhitespace wkLeadingWs.date = "" ∧
    ("2024-01-01" : String) ≠ "" ∧
    lastFourDaysWorkoutsFrom [wkAllWs] = none := by
  refine ⟨by decide, by decide, by decide, by decide⟩

theorem dropWhile_head_false {α : Type} (p : α → Bool) :
    ∀ (l : List α) (c : α) (cs : List α), l.dropWhile p = c :: cs → p c = false
  | [], c, cs, h => by simp at h
  | a :: t, c, cs, h => by
    by_cases hp : p a = true
    · rw [List.dropWhile_cons_of_pos hp] at h
      exact dropWhile_head_false p t c cs h
    · rw [List.dropWhile_cons_of_neg hp] at h
      injection h with h1 h2
      subst h1
      simpa using hp

/-- C7 amended: the grouping date is the first whitespace-delimited token of
the raw date field (leading whitespace skipped, then characters up to the
next whitespace), and the normalization is defined exactly when the date
contains some non-whitespace character; on an all-whitespace date the
grouper's run is aborted (source panic). -/
theorem date_truncation_amended (r : RawWorkoutRecord) :
    (∀ d, firstTokenStr r.date = some d →
      (∃ w, lastFourDaysWorkoutsFrom [r] = some w ∧ w.data.map Prod.fst = [d]) ∧
      d = ⟨(r.date.data.dropWhile rustIsWhitespace).takeWhile
            (fun a => !rustIsWhitespace a)⟩) ∧
    (firstTokenStr r.date = none → lastFourDaysWorkoutsFrom [r] = none) ∧
    (firstTokenStr r.date = none ↔ r.date.data.all rustIsWhitespace) := by
  refine ⟨fun d hd => ⟨⟨⟨[(d, freshDay r)]⟩, ?_, by simp⟩, ?_⟩, fun hn => ?_, ?_⟩
  · simp [lastFourDaysWorkoutsFrom, addRecord, hd, entryModifyOrInsert]
  · rcases hdw : r.date.data.dropWhile rustIsWhitespace with _ | ⟨c, cs⟩ <;>
      simp only [firstTokenStr, hdw] at hd
    · exact absurd hd (by simp)
    · exact (Option.some.inj hd).symm
  · simp [lastFourDaysWorkoutsFrom, addRecord, hn]
  · rcases hdw : r.date.data.dropWhile rustIsWhitespace with _ | ⟨c, cs⟩ <;>
      simp only [firstTokenStr, hdw]
    · simp only [List.dropWhile_eq_nil_iff] at hdw
      simpa [List.all_eq_true] using hdw
    · have hc : rustIsWhitespace c = false :=
        dropWhile_head_false rustIsWhitespace r.date.data c cs hdw
      have hcm : c ∈ r.date.data :=
        (List.dropWhile_suffix rustIsWhitespace).subset
          (by rw [hdw]; exact List.mem_cons_self c cs)
      simp only [List.all_eq_true]
      exact iff_of_false (by simp) (fun hall => by simp [hall c hcm] at hc)

def wkAmend : RawWorkoutRecord := mkWorkout "2024-03-01 09:00" "Deadlift" "180" "5"

theorem date_truncation_amended_witness :
    (∀ d, firstTokenStr wkAmend.date = some d →
      (∃ w, lastFourDaysWorkoutsFrom [wkAmend] = some w ∧
        w.data.map Prod.fst = [d]) ∧
      d = ⟨(wkAmend.date.data.dropWhile rustIsWhitespace).takeWhile
            (fun a => !rustIsWhitespace a)⟩) ∧
    (firstTokenStr wkAmend.date = none → lastFourDaysWorkoutsFrom [wkAmend] = none) ∧
    (firstTokenStr wkAmend.date = none ↔ wkAmend.date.data.all rustIsWhitespace) :=
  date_truncation_amended wkAmend

/-! ### Nutrition records and aggregation
(`build_nutrition_csv_for_clipboard`, identical in `main.rs` and `mfp.rs`) -/

/-- `RawNutritionRecord` (all fields textual, as in the source). -/
structure RawNutritionRecord where
  date : String
  meal : String
  calories : String
  fat : String
  saturated_fat : String
  polyunsaturated_fat : String
  monounsaturated_fat : String
  trans_fat : String
  cholesterol : String
  sodium : String
  potassium : String
  carbohydrates : String
  fiber : String
  sugar : String
  protein : String
  vitamin_a : String
  vitamin_c : String
  calcium : String
  iron : String
  note : Option String
deriving DecidableEq, Repr

/-- `ProcessedNutritionRecord`.  The source's `f64` running sums are modelled
as exact rationals. -/
structure ProcessedNutritionRecord where
  protein : ℚ
  carbohydrates : ℚ
  fat : ℚ
deriving DecidableEq, Repr

/-- One iteration of the aggregation loop: the record's protein, carbohydrates
and fat fields are parsed (both the `and_modify` closure and the eagerly
evaluated `or_insert` argument parse all three of them), the per-date
aggregate is updated or created.  An unparsable field is an `unwrap` panic,
which aborts the run (`none`). -/
def nutritionStep (parse : String → Option ℚ)
    (m : List (String × ProcessedNutritionRecord)) (r : RawNutritionRecord) :
    Option (List (String × ProcessedNutritionRecord)) :=
  match parse r.protein, parse r.carbohydrates, parse r.fat with
  | some p, some c, some f =>
    some (entryModifyOrInsert r.date
      (fun pr => ⟨pr.protein + p, pr.carbohydrates + c, pr.fat + f⟩)
      ⟨p, c, f⟩ m)
  | _, _, _ => none

/-- `build_nutrition_csv_for_clipboard`'s aggregation result: the values of
`records_grouped_by_date`, in first-seen date order (`none` models the panic
on a numeric-parse failure; the source writes to its output sink only after
this loop finishes, so a panic produces no partial output). -/
def buildNutritionForClipboard (parse : String → Option ℚ)
    (records : List RawNutritionRecord) :
    Option (List ProcessedNutritionRecord) :=
  (records.foldlM (nutritionStep parse) []).map (List.map Prod.snd)

theorem foldlM_nutritionStep_isSome (parse : String → Option ℚ) :
    ∀ (rs : List RawNutritionRecord) (m : List (String × ProcessedNutritionRecord)),
      (rs.foldlM (nutritionStep parse) m).isSome ↔
      ∀ r ∈ rs, (parse r.protein).isSome ∧ (parse r.carbohydrates).isSome ∧
        (parse r.fat).isSome
  | [], m => by simp
  | r :: rs, m => by
    simp only [List.foldlM_cons, Option.bind_eq_bind]
    rcases hp : parse r.protein with _ | p
    · simp [nutritionStep, hp]
    rcases hc : parse r.carbohydrates with _ | c
    · simp [nutritionStep, hp, hc]
    rcases hf : parse r.fat with _ | f
    · simp [nutritionStep, hp, hc, hf]
    simp only [nutritionStep, hp, hc, hf, Option.some_bind]
    rw [foldlM_nutritionStep_isSome parse rs _]
    simp [hp, hc, hf]

theorem sum_meas_entryModifyOrInsert {β : Type} {k : String} {f : β → β}
    {v : β} (meas : β → ℚ) (δ : ℚ) (hf : ∀ b, meas (f b) = meas b + δ)
    (hv : meas v = δ) :
    ∀ m : List (String × β),
      ((entryModifyOrInsert k f v m).map (fun kv => meas kv.2)).sum =
        (m.map (fun kv => meas kv.2)).sum + δ
  | [] => by simp [entryModifyOrInsert, hv]
  | (k', b) :: t => by
    by_cases h : k' = k
    · simp only [entryModifyOrInsert, if_pos h, List.map_cons, List.sum_cons, hf b]
      ring
    · simp only [entryModifyOrInsert, if_neg h, List.map_cons, List.sum_cons,
        sum_meas_entryModifyOrInsert meas δ hf hv t]
      ring

theorem foldlM_nutritionStep_sums (parse : String → Option ℚ) :
    ∀ (rs : List RawNutritionRecord)
      (m g : List (String × ProcessedNutritionRecord)),
      rs.foldlM (nutritionStep parse) m = some g →
      (g.map (fun kv => kv.2.protein)).sum =
        (m.map (fun kv => kv.2.protein)).sum +
          (rs.map (fun r => (parse r.protein).getD 0)).sum ∧
      (g.map (fun kv => kv.2.carbohydrates)).sum =
        (m.map (fun kv => kv.2.carbohydrates)).sum +
          (rs.map (fun r => (parse r.carbohydrates).getD 0)).sum ∧
      (g.map (fun kv => kv.2.fat)).sum =
        (m.map (fun kv => kv.2.fat)).sum +
          (rs.map (fun r => (parse r.fat).getD 0)).sum
  | [], m, g, hg => by
    simp only [List.foldlM_nil, Option.pure_def, Option.some.injEq] at hg
    subst hg
    simp
  | r :: rs, m, g, hg => by
    simp only [List.foldlM_cons, Option.bind_eq_bind] at hg
    rcases hp : parse r.protein with _ | p
    · simp [nutritionStep, hp] at hg
    rcases hc : parse r.carbohydrates with _ | c
    · simp [nutritionStep, hp, hc] at hg
    rcases hf : parse r.fat with _ | f
    · simp [nutritionStep, hp, hc, hf] at hg
    simp only [nutritionStep, hp, hc, hf, Option.some_bind] at hg
    have ih := foldlM_nutritionStep_sums parse rs _ g hg
    have hsp := sum_meas_entryModifyOrInsert (k := r.date)
      (f := fun pr => ⟨pr.protein + p, pr.carbohydrates + c, pr.fat + f⟩)
      (v := ⟨p, c, f⟩) (fun pr => pr.protein) p (fun b => rfl) rfl m
    have hsc := sum_meas_entryModifyOrInsert (k := r.date)
      (f := fun pr => ⟨pr.protein + p, pr.carbohydrates + c, pr.fat + f⟩)
      (v := ⟨p, c, f⟩) (fun pr => pr.carbohydrates) c (fun b => rfl) rfl m
    have hsf := sum_meas_entryModifyOrInsert (k := r.date)
      (f := fun pr => ⟨pr.protein + p, pr.carbohydrates + c, pr.fat + f⟩)
      (v := ⟨p, c, f⟩) (fun pr => pr.fat) f (fun b => rfl) rfl m
    refine ⟨?_, ?_, ?_⟩
    · rw [ih.1, hsp, List.map_cons, List.sum_cons, hp]
      simp only [Option.getD_some]
      ring
    · rw [ih.2.1, hsc, List.map_cons, List.sum_cons, hc]
      simp only [Option.getD_some]
      ring
    · rw [ih.2.2, hsf, List.map_cons, List.sum_cons, hf]
      simp only [Option.getD_some]
      ring

/-- C3: when every record's protein, carbohydrates and fat fields parse, the
aggregation succeeds and the sum of each macro over the per-date aggregates
equals its sum over all input records.  (`f64` addition is modelled as exact
rational addition.) -/
theorem nutrition_sums_preserved (parse : String → Option ℚ)
    (records : List RawNutritionRecord)
    (h : ∀ r ∈ records, (parse r.protein).isSome ∧
      (parse r.carbohydrates).isSome ∧ (parse r.fat).isSome) :
    ∃ out, buildNutritionForClipboard parse records = some out ∧
      (out.map (fun pr => pr.protein)).sum =
        (records.map (fun r => (parse r.protein).getD 0)).sum ∧
      (out.map (fun pr => pr.carbohydrates)).sum =
        (records.map (fun r => (parse r.carbohydrates).getD 0)).sum ∧
      (out.map (fun pr => pr.fat)).sum =
        (records.map (fun r => (parse r.fat).getD 0)).sum := by
  have hsome : (records.foldlM (nutritionStep parse) []).isSome :=
    (foldlM_nutritionStep_isSome parse records []).mpr h
  obtain ⟨g, hg⟩ := Option.isSome_iff_exists.mp hsome
  have hs := foldlM_nutritionStep_sums parse records [] g hg
  refine ⟨g.map Prod.snd, by simp [buildNutritionForClipboard, hg], ?_, ?_, ?_⟩
  · simpa [List.map_map, Function.comp] using hs.1
  · simpa [List.map_map, Function.comp] using hs.2.1
  · simpa [List.map_map, Function.comp] using hs.2.2

/-- Witness parse function: decimal-digit literals as rationals. -/
def ratParse (s : String) : Option ℚ :=
  if s.data ≠ [] ∧ s.data.all Char.isDigit
  then some ((s.data.foldl (fun acc c => 10 * acc + (c.toNat - 48)) 0 : ℕ) : ℚ)
  else none

def mkNutrition (d p c f : String) : RawNutritionRecord :=
  ⟨d, "", "", f, "", "", "", "", "", "", "", c, "", "", p, "", "", "", "", none⟩

def nutA : RawNutritionRecord := mkNutrition "2024-01-01" "20" "30" "5"

def nutB : RawNutritionRecord := mkNutrition "2024-01-01" "10" "5" "2"

def nutBad : RawNutritionRecord := mkNutrition "2024-01-02" "x" "1" "2"

theorem nutrition_sums_preserved_witness :
    ∃ out, buildNutritionForClipboard ratParse [nutA, nutB] = some out ∧
      (out.map (fun pr => pr.protein)).sum =
        ([nutA, nutB].map (fun r => (ratParse r.protein).getD 0)).sum ∧
      (out.map (fun pr => pr.carbohydrates)).sum =
        ([nutA, nutB].map (fun r => (ratParse r.carbohydrates).getD 0)).sum ∧
      (out.map (fun pr => pr.fat)).sum =
        ([nutA, nutB].map (fun r => (ratParse r.fat).getD 0)).sum :=
  nutrition_sums_preserved ratParse [nutA, nutB] (by decide)

/-- C4: the nutrition aggregation succeeds iff every record's protein,
carbohydrates and fat fields are numeric; any unparsable field aborts the run
(the source panics inside the loop and writes output only afterwards, so no
partial output is produced — `none` here is the aborted run). -/
theorem nutrition_parse_failure_aborts (parse : String → Option ℚ)
    (records : List RawNutritionRecord) :
    (buildNutritionForClipboard parse records).isSome ↔
      ∀ r ∈ records, (parse r.protein).isSome ∧
        (parse r.carbohydrates).isSome ∧ (parse r.fat).isSome := by
  rw [buildNutritionForClipboard, Option.isSome_map']
  exact foldlM_nutritionStep_isSome parse records []

theorem nutrition_parse_failure_aborts_witness :
    ((buildNutritionForClipboard ratParse [nutA, nutBad]).isSome ↔
      ∀ r ∈ [nutA, nutBad], (ratParse r.protein).isSome ∧
        (ratParse r.carbohydrates).isSome ∧ (ratParse r.fat).isSome) ∧
    buildNutritionForClipboard ratParse [nutA, nutBad] = none := by
  refine ⟨nutrition_parse_failure_aborts ratParse [nutA, nutBad], ?_⟩
  have h := nutrition_parse_failure_aborts ratParse [nutA, nutBad]
  rcases hb : buildNutritionForClipboard ratParse [nutA, nutBad] with _ | out
  · rfl
  · exact absurd ((h.mp (by rw [hb]; rfl)) nutBad (by decide)).1 (by decide)

/-! ### The record parser (`deserialize_*_csv`, both files) -/

/-- `rdr.deserialize().partition(Result::is_ok)` followed by unwrapping the
`Ok` partition: rows that fail to bind to the record shape are silently
dropped; row binding itself (serde over the normalized headers) is an
external collaborator passed in as `bindRow`.  The function is total: no
error is surfaced to the caller. -/
def deserializeRecords {Row Rec : Type} (bindRow : Row → Option Rec)
    (rows : List Row) : List Rec :=
  (((rows.map bindRow).partition Option.isSome).1).filterMap id

theorem deserializeRecords_eq_filterMap {Row Rec : Type}
    (bindRow : Row → Option Rec) (rows : List Row) :
    deserializeRecords bindRow rows = rows.filterMap bindRow := by
  rw [deserializeRecords, List.partition_eq_filter_filter]
  induction rows with
  | nil => rfl
  | cons r rs ih =>
    rcases hb : bindRow r with _ | rec <;>
      simp [List.filter_cons, hb, List.filterMap_cons, ih]

theorem filterMap_length_eq_iff {Row Rec : Type} (bindRow : Row → Option Rec) :
    ∀ rows : List Row,
      (rows.filterMap bindRow).length = rows.length ↔
        ∀ row ∈ rows, (bindRow row).isSome
  | [] => by simp
  | r :: rs => by
    rcases hb : bindRow r with _ | rec
    · simp only [List.filterMap_cons, hb, List.length_cons]
      have hle := List.length_filterMap_le bindRow rs
      constructor
      · intro h
        omega
      · intro h
        exact absurd (h r (List.mem_cons_self r rs)) (by simp [hb])
    · simp only [List.filterMap_cons, hb, List.length_cons, Nat.add_right_cancel_iff]
      rw [filterMap_length_eq_iff bindRow rs]
      constructor
      · intro h row hrow
        rcases List.mem_cons.mp hrow with rfl | hrow
        · simp [hb]
        · exact h row hrow
      · intro h row hrow
        exact h row (List.mem_cons_of_mem _ hrow)

/-- C5: the record parser's output is exactly the successfully-bound rows in
input order; its length is at most the number of data rows, with equality
exactly when every row binds; non-conforming rows are dropped with no error
(the function is total). -/
theorem record_parser_silent_drop {Row Rec : Type} (bindRow : Row → Option Rec)
    (rows : List Row) :
    deserializeRecords bindRow rows = rows.filterMap bindRow ∧
    (deserializeRecords bindRow rows).length ≤ rows.length ∧
    ((deserializeRecords bindRow rows).length = rows.length ↔
      ∀ row ∈ rows, (bindRow row).isSome) := by
  have heq := deserializeRecords_eq_filterMap bindRow rows
  exact ⟨heq, heq ▸ List.length_filterMap_le bindRow rows,
    heq ▸ filterMap_length_eq_iff bindRow rows⟩

theorem record_parser_silent_drop_witness :
    deserializeRecords ratParse ["1", "x", "23"] =
      ["1", "x", "23"].filterMap ratParse ∧
    (deserializeRecords ratParse ["1", "x", "23"]).length ≤
      (["1", "x", "23"] : List String).length ∧
    ((deserializeRecords ratParse ["1", "x", "23"]).length =
        (["1", "x", "23"] : List String).length ↔
      ∀ row ∈ ["1", "x", "23"], (ratParse row).isSome) :=
  record_parser_silent_drop ratParse ["1", "x", "23"]

/-! ### The header normalizer (the `match` tables over raw header labels,
followed by `to_lowercase`) -/

/-- The `match` arms of `deserialize_nutrition_csv` (identical in `main.rs`
and `mfp.rs`). -/
def nutritionHeaderTable : List (String × String) :=
  [("Fat (g)", "fat"), ("Sodium (mg)", "sodium"),
   ("Carbohydrates (g)", "carbohydrates"), ("Protein (g)", "protein"),
   ("Saturated Fat", "saturated_fat"),
   ("Polyunsaturated Fat", "polyunsaturated_fat"),
   ("Monounsaturated Fat", "monounsaturated_fat"), ("Trans Fat", "trans_fat"),
   ("Vitamin A", "vitamin_a"), ("Vitamin C", "vitamin_c")]

/-- The `match` arms of `deserialize_weight_csv` (both files). -/
def weightHeaderTable : List (String × String) := [("Body Fat %", "body_fat")]

/-- The `match` arms of `deserialize_workout_csv` (`main.rs`). -/
def workoutHeaderTable : List (String × String) :=
  [("Workout Name", "workout_name"), ("Exercise Name", "exercise_name"),
   ("Set Order", "set_order"), ("Workout Notes", "workout_notes")]

/-- The `match` arms of `deserialize_steps_csv` (`mfp.rs`). -/
def stepsHeaderTable : List (String × String) :=
  [("Type", "_type"), ("Exercise Calories", "exercise_calories"),
   ("Exercise Minutes", "exercise_minutes"), ("Reps Per Set", "rps")]

/-- One label through the kind's `match`: exact-match remap, unmatched labels
pass through unchanged. -/
def remapLabel (tbl : List (String × String)) (h : String) : String :=
  (List.lookup h tbl).getD h

/-- `str::to_lowercase` (ASCII model; every raw label in the source's tables
is ASCII). -/
def lowerStr (s : String) : String := ⟨s.data.map Char.toLower⟩

/-- A header row through `.map(match).map(|h| h.to_lowercase())`. -/
def normalizeHeaders (tbl : List (String × String)) (row : List String) :
    List String :=
  row.map (fun h => lowerStr (remapLabel tbl h))

def hasUpperChar (c : Char) : Bool := decide (65 ≤ c.toNat ∧ c.toNat ≤ 90)

theorem toNat_ofNat_of_valid {n : ℕ} (h : n.isValidChar) :
    (Char.ofNat n).toNat = n := by
  simp only [Char.ofNat, dif_pos h, Char.ofNatAux, Char.toNat]
  rfl

theorem toLower_eq_ite (c : Char) :
    c.toLower = (if c.toNat ≥ 65 ∧ c.toNat ≤ 90
      then Char.ofNat (c.toNat + 32) else c) := rfl

theorem toLower_not_upper (c : Char) :
    ¬ (65 ≤ c.toLower.toNat ∧ c.toLower.toNat ≤ 90) := by
  rw [toLower_eq_ite]
  by_cases h : c.toNat ≥ 65 ∧ c.toNat ≤ 90
  · rw [if_pos h]
    have hv : (c.toNat + 32).isValidChar := Or.inl (by omega)
    rw [toNat_ofNat_of_valid hv]
    omega
  · rw [if_neg h]
    exact fun hc => h ⟨hc.1, hc.2⟩

theorem toLower_idem (c : Char) : c.toLower.toLower = c.toLower := by
  rw [toLower_eq_ite c.toLower,
    if_neg (fun hc => toLower_not_upper c ⟨hc.1, hc.2⟩)]

theorem lowerStr_idem (s : String) : lowerStr (lowerStr s) = lowerStr s := by
  simp only [lowerStr, List.map_map]
  exact congrArg String.mk (List.map_congr_left (fun c _ => toLower_idem c))

theorem lowerStr_no_upper (s : String) :
    (lowerStr s).data.any hasUpperChar = false := by
  simp only [lowerStr, List.any_map]
  rw [List.any_eq_false]
  intro c _
  simp only [Function.comp_apply, hasUpperChar]
  exact decide_eq_false (toLower_not_upper c) ▸ (by simp)

theorem lookup_eq_none_of_no_upper :
    ∀ (tbl : List (String × String)),
      (∀ p ∈ tbl, p.1.data.any hasUpperChar = true) →
      ∀ s : String, s.data.any hasUpperChar = false →
      List.lookup s tbl = none
  | [], _, s, _ => rfl
  | (k, v) :: t, htbl, s, hs => by
    simp only [List.lookup]
    rcases hbeq : s == k with _ | _
    · exact lookup_eq_none_of_no_upper t
        (fun p hp => htbl p (List.mem_cons_of_mem _ hp)) s hs
    · have hk : s = k := eq_of_beq hbeq
      subst hk
      rw [htbl (s, v) (List.mem_cons_self _ _)] at hs
      cases hs

theorem normalizeHeaders_idem (tbl : List (String × String))
    (htbl : ∀ p ∈ tbl, p.1.data.any hasUpperChar = true) (row : List String) :
    normalizeHeaders tbl (normalizeHeaders tbl row) =
      normalizeHeaders tbl row := by
  simp only [normalizeHeaders, List.map_map]
  refine List.map_congr_left (fun h _ => ?_)
  simp only [Function.comp_apply]
  rw [remapLabel, lookup_eq_none_of_no_upper tbl htbl _ (lowerStr_no_upper _),
    Option.getD_none, lowerStr_idem]

/-- C9: for each record kind, the header normalizer (kind-specific exact-match
remap followed by lower-casing) is idempotent on every header row. -/
theorem header_normalizer_idempotent (row : List String) :
    normalizeHeaders nutritionHeaderTable
        (normalizeHeaders nutritionHeaderTable row) =
      normalizeHeaders nutritionHeaderTable row ∧
    normalizeHeaders weightHeaderTable
        (normalizeHeaders weightHeaderTable row) =
      normalizeHeaders weightHeaderTable row ∧
    normalizeHeaders workoutHeaderTable
        (normalizeHeaders workoutHeaderTable row) =
      normalizeHeaders workoutHeaderTable row ∧
    normalizeHeaders stepsHeaderTable
        (normalizeHeaders stepsHeaderTable row) =
      normalizeHeaders stepsHeaderTable row :=
  ⟨normalizeHeaders_idem _ (by decide) row, normalizeHeaders_idem _ (by decide) row,
   normalizeHeaders_idem _ (by decide) row, normalizeHeaders_idem _ (by decide) row⟩

def headerRowSample : List String :=
  ["Date", "Fat (g)", "Carbohydrates (g)", "Protein (g)", "Body Fat %",
   "Workout Name", "Type", "note"]

theorem header_normalizer_idempotent_witness :
    normalizeHeaders nutritionHeaderTable
        (normalizeHeaders nutritionHeaderTable headerRowSample) =
      normalizeHeaders nutritionHeaderTable headerRowSample ∧
    normalizeHeaders weightHeaderTable
        (normalizeHeaders weightHeaderTable headerRowSample) =
      normalizeHeaders weightHeaderTable headerRowSample ∧
    normalizeHeaders workoutHeaderTable
        (normalizeHeaders workoutHeaderTable headerRowSample) =
      normalizeHeaders workoutHeaderTable headerRowSample ∧
    normalizeHeaders stepsHeaderTable
        (normalizeHeaders stepsHeaderTable headerRowSample) =
      normalizeHeaders stepsHeaderTable headerRowSample :=
  header_normalizer_idempotent headerRowSample

/-! ### Weight and steps records (`mfp.rs`, plus `main.rs`'s weight shape) -/

/-- `WeightRecord` of `mfp.rs`: `body_fat: Option<String>`. -/
structure WeightRecord where
  date : String
  body_fat : Option String
  weight : String
deriving DecidableEq, Repr

/-- `WeightRecord` of `main.rs` (same name in that file): `body_fat: String`,
a required textual field. -/
structure MainWeightRecord where
  date : String
  body_fat : String
  weight : String
deriving DecidableEq, Repr

/-- `StepsRecord` (`mfp.rs`). -/
structure StepsRecord where
  date : String
  exercise : String
  _type : String
  exercise_calories : String
  exercise_minutes : String
  sets : String
  rps : String
  kilograms : String
  steps : String
  note : String
deriving DecidableEq, Repr

/-- serde row binding for the `mfp.rs` `WeightRecord` shape, from a data row
aligned to the canonical `date, body_fat, weight` headers: an empty body-fat
field binds to `None` (csv serde's treatment of `Option<String>`); a row of
the wrong arity fails to bind. -/
def bindWeightRow : List String → Option WeightRecord
  | [d, b, w] => some ⟨d, if b = "" then none else some b, w⟩
  | _ => none

/-- The `for record in records { only_weight.push(record.weight); }` loop of
`deserialize_weight_csv` (`mfp.rs`). -/
def onlyWeights (records : List WeightRecord) : List String :=
  records.foldl (fun acc r => acc ++ [r.weight]) []

/-- The `if record.steps != "" { only_steps.push(record.steps); }` loop of
`deserialize_steps_csv` (`mfp.rs`). -/
def onlySteps (records : List StepsRecord) : List String :=
  records.foldl (fun acc r => if r.steps ≠ "" then acc ++ [r.steps] else acc) []

/-- The serialization loop of `build_weight_csv_for_clipboard` (`main.rs`):
one csv row (`date, body_fat, weight`) per record. -/
def mainWeightRows (records : List MainWeightRecord) : List (List String) :=
  records.foldl (fun acc r => acc ++ [[r.date, r.body_fat, r.weight]]) []

theorem foldl_push_eq_map {α β : Type} (f : α → β) :
    ∀ (l : List α) (acc : List β),
      l.foldl (fun a r => a ++ [f r]) acc = acc ++ l.map f
  | [], acc => by simp
  | r :: t, acc => by
    rw [List.foldl_cons, foldl_push_eq_map f t (acc ++ [f r])]
    simp

theorem foldl_push_filter {α β : Type} (p : α → Prop) [DecidablePred p]
    (f : α → β) :
    ∀ (l : List α) (acc : List β),
      l.foldl (fun a r => if p r then a ++ [f r] else a) acc =
        acc ++ (l.filter (fun r => decide (p r))).map f
  | [], acc => by simp
  | r :: t, acc => by
    by_cases hp : p r <;>
      simp [List.foldl_cons, foldl_push_filter p f t, List.filter_cons, hp]

/-- C8: the body-fat field is optional — a data row whose body-fat value is
absent (empty) still binds to the weight record shape — and each weight entry
is emitted exactly once, in input order, with no aggregation (both the
`main.rs` full-record emission and the `mfp.rs` weight-only extraction). -/
theorem weight_passthrough (records : List WeightRecord)
    (mrecords : List MainWeightRecord) :
    (∀ d w, bindWeightRow [d, "", w] = some ⟨d, none, w⟩) ∧
    onlyWeights records = records.map (fun r => r.weight) ∧
    (onlyWeights records).length = records.length ∧
    mainWeightRows mrecords =
      mrecords.map (fun r => [r.date, r.body_fat, r.weight]) := by
  have h1 : onlyWeights records = records.map (fun r => r.weight) := by
    simpa using foldl_push_eq_map (fun r : WeightRecord => r.weight) records []
  refine ⟨fun d w => by simp [bindWeightRow], h1, ?_, ?_⟩
  · rw [h1, List.length_map]
  · simpa using foldl_push_eq_map
      (fun r : MainWeightRecord => [r.date, r.body_fat, r.weight]) mrecords []

def weightRecsSample : List WeightRecord :=
  [⟨"2024-01-01", none, "80.5"⟩, ⟨"2024-01-02", some "18", "80.1"⟩]

def mainWeightRecsSample : List MainWeightRecord :=
  [⟨"2024-01-01", "", "80.5"⟩, ⟨"2024-01-02", "18", "80.1"⟩]

theorem weight_passthrough_witness :
    (∀ d w, bindWeightRow [d, "", w] = some ⟨d, none, w⟩) ∧
    onlyWeights weightRecsSample = weightRecsSample.map (fun r => r.weight) ∧
    (onlyWeights weightRecsSample).length = weightRecsSample.length ∧
    mainWeightRows mainWeightRecsSample =
      mainWeightRecsSample.map (fun r => [r.date, r.body_fat, r.weight]) :=
  weight_passthrough weightRecsSample mainWeightRecsSample

/-! ### The csv writer model and the browser-facing `process` (`mfp.rs`) -/

/-- csv `QuoteStyle::Necessary`: a field is quoted when it contains a quote,
the delimiter, or a line-terminator byte. -/
def csvNeedsQuotes (f : List Char) : Bool :=
  f.any (fun c => c = '"' || c = ',' || c = '\n' || c = '\r')

/-- Quote a field: wrap in quotes, doubling inner quotes. -/
def csvQuote (f : List Char) : List Char :=
  '"' :: (f.flatMap (fun c => if c = '"' then ['"', '"'] else [c])) ++ ['"']

/-- A record's single empty field is also quoted (`""`), distinguishing it
from an empty record, as the csv writer does. -/
def csvEscapeField (single : Bool) (f : List Char) : List Char :=
  if csvNeedsQuotes f || (single && f.isEmpty) then csvQuote f else f

/-- Fields joined by the comma delimiter. -/
def joinComma : List (List Char) → List Char
  | [] => []
  | [f] => f
  | f :: fs => f ++ ',' :: joinComma fs

/-- One written record, terminated by `\n`. -/
def csvRecordLine (fields : List (List Char)) : List Char :=
  joinComma (fields.map (csvEscapeField (fields.length == 1))) ++ ['\n']

/-- `csv::Writer` over a byte buffer: the (struct) header row is written
lazily before the first record, so zero records produce an empty buffer. -/
def csvWrite (hdr : Option (List (List Char)))
    (rows : List (List (List Char))) : List Char :=
  match rows with
  | [] => []
  | _ :: _ =>
    (match hdr with
     | some h => csvRecordLine h
     | none => []) ++ (rows.map csvRecordLine).flatten

/-- Fuelled scanner for `str::replace` (structural recursion on the fuel so
that the definition computes by kernel reduction; `replaceAll` supplies fuel
`s.length`, which `replaceAllFuel_stable` shows is always enough). -/
def replaceAllFuel (pat rep : List Char) : ℕ → List Char → List Char
  | _, [] => []
  | 0, s => s
  | fuel + 1, c :: cs =>
    if pat ≠ [] ∧ pat.isPrefixOf (c :: cs)
    then rep ++ replaceAllFuel pat rep fuel (List.drop (pat.length - 1) cs)
    else c :: replaceAllFuel pat rep fuel cs

/-- Rust `str::replace`: replace the leftmost non-overlapping occurrences of
`pat`, scanning the original text left to right (replacements are not
re-scanned).  The source only uses non-empty patterns; for an empty pattern
this model is the identity. -/
def replaceAll (pat rep : List Char) (s : List Char) : List Char :=
  replaceAllFuel pat rep s.length s

theorem replaceAllFuel_stable (pat rep : List Char) :
    ∀ (fuel : ℕ) (s : List Char), s.length ≤ fuel →
      replaceAllFuel pat rep fuel s = replaceAll pat rep s := by
  intro fuel
  induction fuel using Nat.strong_induction_on with
  | _ fuel ih =>
    intro s hs
    rcases s with _ | ⟨c, cs⟩
    · rw [replaceAll]
      rcases fuel with _ | f <;> rfl
    · rcases fuel with _ | f
      · simp at hs
      · simp only [List.length_cons] at hs
        rw [replaceAll]
        simp only [List.length_cons, replaceAllFuel]
        have h1 : (List.drop (pat.length - 1) cs).length ≤ f := by
          simp only [List.length_drop]
          omega
        have h2 : (List.drop (pat.length - 1) cs).length ≤ cs.length := by
          simp only [List.length_drop]
          omega
        rw [ih f (by omega) _ h1, ih cs.length (by omega) _ h2,
          ih f (by omega) cs (by omega)]
        rfl

theorem replaceAll_nil (pat rep : List Char) : replaceAll pat rep [] = [] := rfl

theorem replaceAll_cons (pat rep : List Char) (c : Char) (cs : List Char) :
    replaceAll pat rep (c :: cs) =
      if pat ≠ [] ∧ pat.isPrefixOf (c :: cs)
      then rep ++ replaceAll pat rep (List.drop (pat.length - 1) cs)
      else c :: replaceAll pat rep cs := by
  rw [replaceAll]
  simp only [List.length_cons, replaceAllFuel]
  rw [replaceAllFuel_stable pat rep cs.length _ (by simp [List.length_drop]),
    replaceAllFuel_stable pat rep cs.length cs (le_refl _)]

/-- Rust `str::contains` with a literal non-empty pattern. -/
def containsSub (pat : List Char) : List Char → Bool
  | [] => false
  | c :: cs => pat.isPrefixOf (c :: cs) || containsSub pat cs

/-- The tail of `process`: if the emitted text mentions "protein", strip every
occurrence of the literal duplicate-header line, then normalize `\n` to
`\r\n`. -/
def postProcess (buf : List Char) : List Char :=
  let out := if containsSub "protein".data buf
    then replaceAll "protein,carbohydrates,fat\n".data [] buf
    else buf
  replaceAll ['\n'] "\r\n".data out

def nutritionCsvHeader : List (List Char) :=
  ["protein".data, "carbohydrates".data, "fat".data]

/-- The per-file-type emission of `process`, producing the raw buffer (`none`
models the `Macros` path's panic on a numeric-parse failure).  Each path
receives its serde-bound records (cf. `deserializeRecords`); the `Weight` and
`Steps` paths apply their extraction loops and serialize one single-field
record per extracted value; an unrecognized selector emits nothing. -/
def processBuf (parse : String → Option ℚ) (fmt : ℚ → String)
    (fileType : String) (nutrition : List RawNutritionRecord)
    (weights : List WeightRecord) (steps : List StepsRecord) :
    Option (List Char) :=
  if fileType = "Macros" then
    (nutrition.foldlM (nutritionStep parse) []).map (fun m =>
      csvWrite (some nutritionCsvHeader)
        ((m.map Prod.snd).map (fun pr =>
          [(fmt pr.protein).data, (fmt pr.carbohydrates).data,
           (fmt pr.fat).data])))
  else if fileType = "Weight" then
    some (csvWrite none ((onlyWeights weights).map (fun w => [w.data])))
  else if fileType = "Steps" then
    some (csvWrite none ((onlySteps steps).map (fun s => [s.data])))
  else
    some []

/-- `process`: emit the buffer for the selected file type, then post-process
it (header-line strip, `\r\n` normalization). -/
def process (parse : String → Option ℚ) (fmt : ℚ → String)
    (fileType : String) (nutrition : List RawNutritionRecord)
    (weights : List WeightRecord) (steps : List StepsRecord) :
    Option (List Char) :=
  (processBuf parse fmt fileType nutrition weights steps).map postProcess

/-- Split a text at `\n` (each `\n` terminates a line). -/
def splitNl : List Char → List (List Char)
  | [] => [[]]
  | c :: cs =>
    if c = '\n' then [] :: splitNl cs
    else
      match splitNl cs with
      | [] => [[c]]
      | l :: ls => (c :: l) :: ls

def stripTrailingCr (l : List Char) : List Char :=
  if l.getLast? = some '\r' then l.dropLast else l

/-- The lines of a text: split at `\n`, dropping each line's trailing `\r`. -/
def linesOf (s : List Char) : List (List Char) :=
  (splitNl s).map stripTrailingCr

/-- "Every line ending is CRLF": adjacent to each `\n` on its left is `\r`. -/
def nlRel (a b : Char) : Prop := b = '\n' → a = '\r'

theorem replaceAll_nl_cons (rep : List Char) (c : Char) (cs : List Char) :
    replaceAll ['\n'] rep (c :: cs) =
      if c = '\n' then rep ++ replaceAll ['\n'] rep cs
      else c :: replaceAll ['\n'] rep cs := by
  by_cases hc : c = '\n'
  · subst hc
    rw [if_pos rfl, replaceAll_cons, if_pos ⟨by simp,
      by rw [List.isPrefixOf_iff_prefix]; exact ⟨cs, rfl⟩⟩]
    simp
  · rw [if_neg hc, replaceAll_cons, if_neg]
    rintro ⟨-, hpre⟩
    rw [List.isPrefixOf_iff_prefix] at hpre
    obtain ⟨t, ht⟩ := hpre
    injection ht with h1 _
    exact hc h1.symm

theorem normalize_head_chain :
    ∀ s : List Char, (replaceAll ['\n'] "\r\n".data s).head? ≠ some '\n' ∧
      List.Chain' nlRel (replaceAll ['\n'] "\r\n".data s)
  | [] => by simp [replaceAll_nil]
  | c :: cs => by
    have ih := normalize_head_chain cs
    rw [replaceAll_nl_cons]
    by_cases hc : c = '\n'
    · rw [if_pos hc]
      refine ⟨by simp, ?_⟩
      show List.Chain' nlRel ('\r' :: '\n' :: replaceAll ['\n'] "\r\n".data cs)
      rw [List.chain'_cons', List.chain'_cons']
      refine ⟨fun y _ _ => rfl, fun y hy hyn => ?_, ih.2⟩
      subst hyn
      exact absurd (Option.mem_def.mp hy) ih.1
    · rw [if_neg hc]
      refine ⟨by simpa using hc, ?_⟩
      rw [List.chain'_cons']
      exact ⟨fun y hy hyn => absurd (hyn ▸ hy) ih.1, ih.2⟩

theorem isPrefixOf_append_of_isPrefixOf {p q r : List Char}
    (h : p.isPrefixOf q = true) : p.isPrefixOf (q ++ r) = true :=
  List.isPrefixOf_iff_prefix.mpr
    ((List.isPrefixOf_iff_prefix.mp h).trans (List.prefix_append q r))

theorem containsSub_of_isPrefixOf {pat s : List Char} (hs : s ≠ [])
    (h : pat.isPrefixOf s = true) : containsSub pat s = true := by
  rcases s with _ | ⟨c, cs⟩
  · exact absurd rfl hs
  · simp [containsSub, h]

theorem replaceAll_strip_leading {pat body : List Char} (hne : pat ≠ []) :
    replaceAll pat [] (pat ++ body) = replaceAll pat [] body := by
  rcases hp : pat with _ | ⟨p, pt⟩
  · exact absurd hp hne
  rw [List.cons_append, replaceAll_cons, if_pos ⟨by simp, by
    rw [← List.cons_append, ← hp]
    exact isPrefixOf_append_of_isPrefixOf (List.isPrefixOf_iff_prefix.mpr
      (List.prefix_refl pat))⟩]
  simp only [List.length_cons, Nat.add_sub_cancel, List.nil_append]
  rw [List.drop_left]

theorem replaceAll_eq_self_of_head_notMem {pat : List Char} {x : Char}
    (hx : pat.head? = some x) :
    ∀ s : List Char, x ∉ s → replaceAll pat [] s = s
  | [], _ => replaceAll_nil _ _
  | c :: cs, hs => by
    have hcx : c ≠ x := fun h => hs (h ▸ List.mem_cons_self c cs)
    rw [replaceAll_cons, if_neg, replaceAll_eq_self_of_head_notMem hx cs
      (fun h => hs (List.mem_cons_of_mem c h))]
    rintro ⟨hne, hpre⟩
    rcases pat with _ | ⟨p, pt⟩
    · exact hne rfl
    · simp only [List.head?_cons, Option.some.injEq] at hx
      simp only [List.isPrefixOf, Bool.and_eq_true, beq_iff_eq] at hpre
      exact hcx (hpre.1.symm.trans hx)

theorem mem_replaceAll_nl {x : Char} (hr : x ≠ '\r') (hn : x ≠ '\n') :
    ∀ s : List Char, x ∉ s → x ∉ replaceAll ['\n'] "\r\n".data s
  | [], _ => by rw [replaceAll_nil]; exact List.not_mem_nil x
  | c :: cs, hs => by
    have hcs : x ∉ cs := fun h => hs (List.mem_cons_of_mem c h)
    rw [replaceAll_nl_cons]
    by_cases hc : c = '\n'
    · rw [if_pos hc]
      intro hmem
      rcases List.mem_append.mp hmem with h | h
      · have h' : x ∈ ['\r', '\n'] := h
        rcases List.mem_cons.mp h' with rfl | h''
        · exact hr rfl
        · rcases List.mem_cons.mp h'' with rfl | h3
          · exact hn rfl
          · cases h3
      · exact mem_replaceAll_nl hr hn cs hcs h
    · rw [if_neg hc]
      intro hmem
      rcases List.mem_cons.mp hmem with rfl | h
      · exact hs (List.mem_cons_self _ _)
      · exact mem_replaceAll_nl hr hn cs hcs h

theorem splitNl_ne_nil : ∀ s : List Char, splitNl s ≠ []
  | [] => by simp [splitNl]
  | c :: cs => by
    rw [splitNl]
    by_cases hc : c = '\n'
    · simp [hc]
    · rcases h : splitNl cs with _ | ⟨l, ls⟩ <;> simp [hc, h]

theorem mem_splitNl_sub :
    ∀ (s : List Char) (l : List Char), l ∈ splitNl s → ∀ c ∈ l, c ∈ s
  | [], l, hl, c, hc => by
    simp only [splitNl, List.mem_singleton] at hl
    subst hl
    cases hc
  | a :: s, l, hl, c, hc => by
    rw [splitNl] at hl
    by_cases ha : a = '\n'
    · rw [if_pos ha] at hl
      rcases List.mem_cons.mp hl with rfl | hl
      · cases hc
      · exact List.mem_cons_of_mem a (mem_splitNl_sub s l hl c hc)
    · rw [if_neg ha] at hl
      rcases hsp : splitNl s with _ | ⟨l0, ls⟩
      · exact absurd hsp (splitNl_ne_nil s)
      · rw [hsp] at hl
        rcases List.mem_cons.mp hl with rfl | hl
        · rcases List.mem_cons.mp hc with rfl | hc
          · exact List.mem_cons_self _ _
          · exact List.mem_cons_of_mem a
              (mem_splitNl_sub s l0 (hsp ▸ List.mem_cons_self _ _) c hc)
        · exact List.mem_cons_of_mem a
            (mem_splitNl_sub s l (hsp ▸ List.mem_cons_of_mem _ hl) c hc)

theorem header_line_not_in_lines {s : List Char} (hs : 'p' ∉ s) :
    "protein,carbohydrates,fat".data ∉ linesOf s := by
  intro hmem
  simp only [linesOf, List.mem_map] at hmem
  obtain ⟨l, hl, heq⟩ := hmem
  have hp : 'p' ∈ stripTrailingCr l := heq ▸ (by decide)
  have hpl : 'p' ∈ l := by
    rw [stripTrailingCr] at hp
    split at hp
    · exact (List.dropLast_prefix l).subset hp
    · exact hp
  exact hs (mem_splitNl_sub s l hl 'p' hpl)

theorem mem_csvQuote {c : Char} {f : List Char} (h : c ∈ csvQuote f) :
    c ∈ f ∨ c = '"' := by
  rw [csvQuote] at h
  rcases List.mem_cons.mp h with hq | h
  · exact Or.inr hq
  rcases List.mem_append.mp h with h | h
  · rw [List.mem_flatMap] at h
    obtain ⟨a, ha, hc⟩ := h
    by_cases haq : a = '"'
    · subst haq
      have hcq : c = '"' := by
        rcases List.mem_cons.mp hc with h1 | hc'
        · exact h1
        · exact List.mem_singleton.mp hc'
      exact Or.inr hcq
    · rw [if_neg haq, List.mem_singleton] at hc
      exact Or.inl (hc ▸ ha)
  · exact Or.inr (List.mem_singleton.mp h)

theorem mem_csvEscapeField {c : Char} {single : Bool} {f : List Char}
    (h : c ∈ csvEscapeField single f) : c ∈ f ∨ c = '"' := by
  rw [csvEscapeField] at h
  split at h
  · exact mem_csvQuote h
  · exact Or.inl h

theorem mem_joinComma {c : Char} :
    ∀ ls : List (List Char), c ∈ joinComma ls → (∃ f ∈ ls, c ∈ f) ∨ c = ','
  | [], h => by cases h
  | [f], h => Or.inl ⟨f, by simp, by simpa [joinComma] using h⟩
  | f :: g :: fs, h => by
    simp only [joinComma] at h
    rcases List.mem_append.mp h with h | h
    · exact Or.inl ⟨f, by simp, h⟩
    · rcases List.mem_cons.mp h with rfl | h
      · exact Or.inr rfl
      · rcases mem_joinComma (g :: fs) h with ⟨f0, hf0, hc⟩ | hcomma
        · exact Or.inl ⟨f0, List.mem_cons_of_mem _ hf0, hc⟩
        · exact Or.inr hcomma

theorem mem_csvRecordLine {c : Char} {fields : List (List Char)}
    (h : c ∈ csvRecordLine fields) :
    (∃ f ∈ fields, c ∈ f) ∨ c = '"' ∨ c = ',' ∨ c = '\n' := by
  rw [csvRecordLine] at h
  rcases List.mem_append.mp h with h | h
  · rcases mem_joinComma _ h with ⟨f, hf, hcf⟩ | rfl
    · rw [List.mem_map] at hf
      obtain ⟨f0, hf0, rfl⟩ := hf
      rcases mem_csvEscapeField hcf with hc | rfl
      · exact Or.inl ⟨f0, hf0, hc⟩
      · exact Or.inr (Or.inl rfl)
    · exact Or.inr (Or.inr (Or.inl rfl))
  · have := List.mem_singleton.mp h
    subst this
    exact Or.inr (Or.inr (Or.inr rfl))

theorem flatten_recordLines_no_p {rows : List (List (List Char))}
    (h : ∀ row ∈ rows, ∀ f ∈ row, 'p' ∉ f) :
    'p' ∉ (rows.map csvRecordLine).flatten := by
  intro hp
  rw [List.mem_flatten] at hp
  obtain ⟨l, hl, hpl⟩ := hp
  rw [List.mem_map] at hl
  obtain ⟨row, hrow, rfl⟩ := hl
  rcases mem_csvRecordLine hpl with ⟨f, hf, hpf⟩ | h1 | h1 | h1
  · exact h row hrow f hf hpf
  · exact absurd h1 (by decide)
  · exact absurd h1 (by decide)
  · exact absurd h1 (by decide)

/-- C6 amended: in every path of `process`, every `\n` of the returned text
is immediately preceded by `\r` (CRLF line endings); in the Macros
(nutrition) path the returned text never contains the exact line
`protein,carbohydrates,fat`.  In the Weight and Steps paths a crafted field
value that embeds the header text around newlines can make that exact line
appear (the strip happens before normalization and only removes occurrences
present in the emitted buffer), so the "never" of the original claim is
restricted to the nutrition path. -/
theorem process_postprocessing_amended (parse : String → Option ℚ)
    (fmt : ℚ → String) (hfmt : ∀ q : ℚ, 'p' ∉ (fmt q).data) :
    (∀ nutrition weights steps out,
      process parse fmt "Macros" nutrition weights steps = some out →
      "protein,carbohydrates,fat".data ∉ linesOf out) ∧
    (∀ fileType nutrition weights steps out,
      process parse fmt fileType nutrition weights steps = some out →
      out.head? ≠ some '\n' ∧ List.Chain' nlRel out) := by
  constructor
  · intro nutrition weights steps out hout
    obtain ⟨buf, hbuf, hpp⟩ := Option.map_eq_some'.mp hout
    subst hpp
    simp only [process, processBuf, if_pos rfl] at hbuf
    obtain ⟨m, _, hcsv⟩ := Option.map_eq_some'.mp hbuf
    rcases hrows : (m.map Prod.snd).map (fun pr =>
        [(fmt pr.protein).data, (fmt pr.carbohydrates).data,
         (fmt pr.fat).data]) with _ | ⟨row, rest⟩ <;> rw [hrows] at hcsv <;>
      subst hcsv
    · decide
    · have hbody : 'p' ∉ ((row :: rest).map csvRecordLine).flatten := by
        refine flatten_recordLines_no_p (fun row' hrow' f hf => ?_)
        rw [← hrows, List.mem_map] at hrow'
        obtain ⟨pr, _, rfl⟩ := hrow'
        rcases List.mem_cons.mp hf with rfl | hf
        · exact hfmt pr.protein
        rcases List.mem_cons.mp hf with rfl | hf
        · exact hfmt pr.carbohydrates
        rcases List.mem_cons.mp hf with rfl | hf
        · exact hfmt pr.fat
        · cases hf
      have hwrite : csvWrite (some nutritionCsvHeader) (row :: rest) =
          "protein,carbohydrates,fat\n".data ++
            ((row :: rest).map csvRecordLine).flatten := by
        rw [csvWrite]
        congr 1
      rw [hwrite]
      have hcont : containsSub "protein".data
          ("protein,carbohydrates,fat\n".data ++
            ((row :: rest).map csvRecordLine).flatten) = true :=
        containsSub_of_isPrefixOf (by simp)
          (isPrefixOf_append_of_isPrefixOf (by decide))
      have hpp : postProcess ("protein,carbohydrates,fat\n".data ++
          ((row :: rest).map csvRecordLine).flatten) =
          replaceAll ['\n'] "\r\n".data
            (((row :: rest).map csvRecordLine).flatten) := by
        rw [postProcess]
        simp only [hcont, if_true]
        rw [replaceAll_strip_leading (by decide),
          replaceAll_eq_self_of_head_notMem (by decide) _ hbody]
      rw [hpp]
      exact header_line_not_in_lines
        (mem_replaceAll_nl (by decide) (by decide) _ hbody)
  · intro fileType nutrition weights steps out hout
    obtain ⟨buf, _, hpp⟩ := Option.map_eq_some'.mp hout
    subst hpp
    exact normalize_head_chain _

/-- A weight value whose text embeds the duplicate-header pattern around
newlines.  Reachable from a real input file: a quoted csv field may contain
commas and newlines, and the weight string is serialized verbatim (quoted). -/
def weightCex : WeightRecord :=
  ⟨"2024-01-01", none,
   "x\nprotein,carbohydrates,faprotein,carbohydrates,fat\nt\ny"⟩

/-- C6 counterexample: a `Weight` input on which the final string returned by
`process` does contain the exact line `protein,carbohydrates,fat` — the strip
removes the one occurrence present in the emitted buffer, and the removal
splices a new occurrence together, which survives normalization as a full
line. -/
theorem process_header_line_counterexample :
    ∃ out, process (fun _ => none) (fun _ => "") "Weight" [] [weightCex] [] =
        some out ∧
      "protein,carbohydrates,fat".data ∈ linesOf out := by
  refine ⟨(process (fun _ => none) (fun _ => "") "Weight" [] [weightCex]
    []).getD [], by rfl, by decide⟩

def fmtZero : ℚ → String := fun _ => "0"

def outMacrosSample : List Char :=
  (process ratParse fmtZero "Macros" [nutA] [] []).getD []

theorem process_postprocessing_amended_witness :
    "protein,carbohydrates,fat".data ∉ linesOf outMacrosSample ∧
    outMacrosSample.head? ≠ some '\n' ∧ List.Chain' nlRel outMacrosSample := by
  have h := process_postprocessing_amended ratParse fmtZero
    (by intro q; show 'p' ∉ "0".data; decide)
  exact ⟨h.1 [nutA] [] [] outMacrosSample rfl,
    h.2 "Macros" [nutA] [] [] outMacrosSample rfl⟩

/-- C10: the browser-facing `process` has a fourth selector, `"Steps"`: it
emits exactly the steps field of each parsed row whose steps field is
non-empty, one value per emitted csv record, in input order, silently
skipping rows whose steps field is the empty string; the path never fails. -/
theorem steps_extraction (parse : String → Option ℚ) (fmt : ℚ → String)
    (records : List StepsRecord) (nutrition : List RawNutritionRecord)
    (weights : List WeightRecord) :
    onlySteps records =
      (records.filter (fun r => decide (¬ r.steps = ""))).map
        (fun r => r.steps) ∧
    process parse fmt "Steps" nutrition weights records =
      some (postProcess (csvWrite none
        ((onlySteps records).map (fun s => [s.data])))) := by
  constructor
  · simpa [onlySteps] using foldl_push_filter
      (fun r : StepsRecord => ¬ r.steps = "") (fun r => r.steps) records []
  · rfl

def mkSteps (d st : String) : StepsRecord :=
  ⟨d, "", "", "", "", "", "", "", st, ""⟩

def stepsSample : List StepsRecord :=
  [mkSteps "2024-01-01" "10000", mkSteps "2024-01-02" "",
   mkSteps "2024-01-03" "8000"]

theorem steps_extraction_witness :
    onlySteps stepsSample =
      (stepsSample.filter (fun r => decide (¬ r.steps = ""))).map
        (fun r => r.steps) ∧
    process ratParse fmtZero "Steps" [] [] stepsSample =
      some (postProcess (csvWrite none
        ((onlySteps stepsSample).map (fun s => [s.data])))) :=
  steps_extraction ratParse fmtZero stepsSample [] []

end ChrisMfp
